import Mathlib

/-!
# Tools: bit and byte manipulation on 64-bit words

A shallow embedding of `src/Tools/Tools.cpp`. A `uint64_t` is a natural number
below `2 ^ 64`; every operation that can leave that range is reduced modulo
`2 ^ 64` explicitly. An `assert` of the source is a guard: the embedded function
returns `none` where the assertion fails and `some r` where the source returns `r`.

The source shifts the all-ones word left by `distance`, and `distance` is 64 for
the full-width range `low = 0`, `high = 63`. C++ gives no value to a shift of a
64-bit operand by 64 or more, so the embedding takes the result of such a shift
as a parameter `wide` of each call, so two calls need not evaluate it alike. Two
evaluations serve as instances: `wrapCount`, the count taken modulo 64 as a shift
instruction of x86-64 or AArch64 takes it, and `shiftOut`, the value 0 that a compiler
folding the shift leaves.

A `char` buffer of the caller is a list of characters and a store `buf[i] = c` is
`List.set`. The two loops (`expandBits`, `clearBuffer`) are run with fuel, one unit
per pass, and return `none` when the fuel does not reach the exit test; the
theorems on them give the fuel that suffices. The state of `expandBits` also keeps
the indices of its stores in program order.
-/

namespace Tools

/-- The constant `-1UL`: the 64-bit word with every bit set. -/
def allOnes : Nat := 2 ^ 64 - 1

/-- The operator `~` on a `uint64_t`. -/
def not64 (x : Nat) : Nat := 2 ^ 64 - 1 - x % 2 ^ 64

/-- The operator `<<` on a `uint64_t`. For a count below 64 the bits pushed past
bit 63 are dropped. For a count of 64 or more the language defines no result and
`wide x n` stands for the word the shift leaves. -/
def shl64 (wide : Nat → Nat → Nat) (x n : Nat) : Nat :=
  if n < 64 then (x <<< n) % 2 ^ 64 else wide x n

/-- An over-wide shift as the shift instructions of x86-64 and AArch64 perform it:
only the low six bits of the count are used. -/
def wrapCount (x n : Nat) : Nat := (x <<< (n % 64)) % 2 ^ 64

/-- The function `getBits` of `Tools.cpp`. -/
def getBits (wide : Nat → Nat → Nat) (low high source : Nat) : Option Nat :=
  if high < 64 ∧ low ≤ high then
    let x := allOnes
    let source := source >>> low
    let distance := (high - low) + 1
    let x := shl64 wide x distance
    let x := if distance ≠ 64 then not64 x else x
    some (source &&& x)
  else none

/-- The function `setBits` of `Tools.cpp`. -/
def setBits (wide : Nat → Nat → Nat) (low high source : Nat) : Option Nat :=
  if high < 64 ∧ low ≤ high then
    let x := allOnes
    let distance := (high - low) + 1
    let x := shl64 wide x distance
    let x := if distance ≠ 64 then not64 x else x
    let x := shl64 wide x low
    some (source ||| x)
  else none

/-- The function `clearBits` of `Tools.cpp`. -/
def clearBits (wide : Nat → Nat → Nat) (low high source : Nat) : Option Nat :=
  if high < 64 ∧ low ≤ high then
    let x := allOnes
    let distance := (high - low) + 1
    let x := shl64 wide x distance
    let x := if distance ≠ 64 then not64 x else x
    let x := shl64 wide x low
    let x := not64 x
    some (source &&& x)
  else none

/-- The function `assignOneBit` of `Tools.cpp`. -/
def assignOneBit (wide : Nat → Nat → Nat) (bitNum bitVal source : Nat) : Option Nat :=
  if bitNum < 64 ∧ (bitVal = 0 ∨ bitVal = 1) then
    let x := 0
    if bitVal = 0 then
      let x := x >>> bitNum
      let x := (x + 1) % 2 ^ 64
      let x := shl64 wide x bitNum
      let x := not64 x
      some (source &&& x)
    else
      let x := 0
      let x := (x + 1) % 2 ^ 64
      let x := shl64 wide x bitNum
      some (source ||| x)
  else none

/-- The function `getByteNumber` of `Tools.cpp`; the result is a `uint8_t`, so the
returned word is reduced modulo 256. -/
def getByteNumber (wide : Nat → Nat → Nat) (byteNum source : Nat) : Option Nat :=
  if byteNum < 64 / 8 then
    let x := allOnes
    let bits := byteNum * 8
    let source := source >>> bits
    let x := shl64 wide x 8
    let x := not64 x
    some ((source &&& x) % 256)
  else none

/-- The function `putByteNumber` of `Tools.cpp`. -/
def putByteNumber (wide : Nat → Nat → Nat) (byteNum byteVal source : Nat) : Option Nat :=
  if byteNum < 64 / 8 then
    let bits := byteNum * 8
    let x := allOnes
    let x := shl64 wide x 8
    let x := not64 x
    let x := shl64 wide x bits
    let x := not64 x
    let source := source &&& x
    let y := byteVal
    let y := shl64 wide y bits
    some (source ||| y)
  else none

/-- The function `buildWord` of `Tools.cpp`. -/
def buildWord (wide : Nat → Nat → Nat) (b0 b1 b2 b3 b4 b5 b6 b7 : Nat) : Nat :=
  let x := 0
  let x := x ||| b7
  let x := shl64 wide x 8
  let x := x ||| b6
  let x := shl64 wide x 8
  let x := x ||| b5
  let x := shl64 wide x 8
  let x := x ||| b4
  let x := shl64 wide x 8
  let x := x ||| b3
  let x := shl64 wide x 8
  let x := x ||| b2
  let x := shl64 wide x 8
  let x := x ||| b1
  let x := shl64 wide x 8
  let x := x ||| b0
  x

/-- The function `isNegative` of `Tools.cpp`. -/
def isNegative (source : Nat) : Bool :=
  let source := source >>> 63
  if source = 1 then true else false

/-- A 64-bit word read as a two's-complement signed integer. -/
def toSigned (w : Nat) : Int :=
  if w < 2 ^ 63 then (w : Int) else (w : Int) - 2 ^ 64

/-- An over-wide shift that pushes every bit out of the word. -/
def shiftOut (_x _n : Nat) : Nat := 0

/-- The byte read built on the range functions, as the specification allows:
`getBits` on the 8-bit range of byte `byteNum`. -/
def getByteNumberViaBits (wide : Nat → Nat → Nat) (byteNum source : Nat) : Option Nat :=
  getBits wide (8 * byteNum) (8 * byteNum + 7) source

/-- The byte write built on the range functions, as the specification allows:
`clearBits` on the 8-bit range of byte `byteNum`, then OR with the byte moved there. -/
def putByteNumberViaBits (wide : Nat → Nat → Nat) (byteNum byteVal source : Nat) :
    Option Nat :=
  match clearBits wide (8 * byteNum) (8 * byteNum + 7) source with
  | none => none
  | some c => some (c ||| (byteVal <<< (8 * byteNum)))

/-- The state of `expandBits`: its locals `x`, `temp`, `j`, `location`, `i`, the
buffer `bits` of the caller, and `stores`, the indices of the assignments
`bits[...] = ...` executed so far, in program order. -/
structure ExpandState where
  x : Nat
  temp : Nat
  j : Int
  location : Int
  i : Int
  bits : List Char
  stores : List Int

/-- The assignment `bits[idx] = c`. The index is recorded in `stores` in every case;
an index past the end of the list leaves the list as it is. -/
def ExpandState.store (s : ExpandState) (idx : Int) (c : Char) : ExpandState :=
  { s with bits := s.bits.set idx.toNat c, stores := s.stores ++ [idx] }

/-- One pass of the `for` loop of `expandBits`: the body, then `i++`. -/
def expandBody (source : Nat) (s : ExpandState) : ExpandState :=
  let s :=
    if s.i = s.j then
      let s := s.store s.location ' '
      let s := { s with location := s.location + 1 }
      let s := { s with j := s.j + 8 }
      { s with i := s.i - 1 }
    else
      let s := { s with temp := s.temp &&& s.x }
      let s := { s with temp := s.temp >>> (63 - s.i).toNat }
      let s := if s.temp = 0 then s.store s.location '0' else s.store s.location '1'
      let s := { s with x := s.x >>> 1 }
      let s := { s with temp := source }
      { s with location := s.location + 1 }
  { s with i := s.i + 1 }

/-- The loop `for (int i = 0; i < 63; i++)` of `expandBits`, run for at most `fuel`
passes; `none` when `fuel` passes do not reach the exit test. -/
def expandLoop (source : Nat) : Nat → ExpandState → Option ExpandState
  | 0, s => if s.i < 63 then none else some s
  | fuel + 1, s =>
    if s.i < 63 then expandLoop source fuel (expandBody source s) else some s

/-- The function `expandBits` of `Tools.cpp`, on a buffer `bits` (a list is never
the null pointer). The result is the state at `return`. -/
def expandBits (wide : Nat → Nat → Nat) (fuel : Nat) (source : Nat) (bits : List Char) :
    Option ExpandState :=
  let x := allOnes
  let x := shl64 wide x 1
  let x := not64 x
  let x := shl64 wide x 63
  let temp := source
  let j := 8
  let location := 0
  match expandLoop source fuel ⟨x, temp, j, location, 0, bits, []⟩ with
  | none => none
  | some s =>
    let a := 1
    let source := source &&& a
    let s := if source = 0 then s.store 70 '0' else s.store 70 '1'
    let s := s.store 71 (Char.ofNat 0)
    some s

/-- The loop `for (int i = 0; i < size; i++) pbuf[i] = 0;` of `clearBuffer`, run for
at most `fuel` passes; `none` when `fuel` passes do not reach the exit test. -/
def clearLoop (size : Int) : Nat → Int → List Char → Option (List Char)
  | 0, i, pbuf => if i < size then none else some pbuf
  | fuel + 1, i, pbuf =>
    if i < size then clearLoop size (fuel) (i + 1) (pbuf.set i.toNat (Char.ofNat 0))
    else some pbuf

/-- The function `clearBuffer` of `Tools.cpp`, on a buffer `pbuf` (a list is never
the null pointer); `none` where the assertion on `size` fails. -/
def clearBuffer (fuel : Nat) (pbuf : List Char) (size : Int) : Option (List Char) :=
  if 0 ≤ size ∧ size ≤ 2147483647 then clearLoop size fuel 0 pbuf else none

/-- The character of the layout of `expandBits` at index `k` of the 71 visible
characters: a space at the end of each group of nine, otherwise the digit of bit
`63 - (8 * (k / 9) + k % 9)` of `source`. -/
def layoutChar (source k : Nat) : Char :=
  if k % 9 = 8 then ' '
  else if source.testBit (63 - (8 * (k / 9) + k % 9)) then '1' else '0'

/-- The loop invariant of `expandBits` after `n` passes over the buffer `buf` of the
caller: the locals as functions of `n`, the first `n` characters laid out, the rest of
the buffer untouched, and the stores made at the indices `0 .. n - 1` in this order. -/
def ExpandInv (source : Nat) (buf : List Char) (n : Nat) (s : ExpandState) : Prop :=
  s.x = 2 ^ (63 - (n - n / 9)) ∧ s.temp = source ∧
    s.j = ((8 * (n / 9 + 1) : Nat) : Int) ∧ s.location = (n : Int) ∧
    s.i = ((n - n / 9 : Nat) : Int) ∧ s.bits.length = buf.length ∧
    (∀ k, k < n → s.bits[k]? = some (layoutChar source k)) ∧
    (∀ k, n ≤ k → s.bits[k]? = buf[k]?) ∧
    s.stores = (List.range n).map Int.ofNat

/-! ## Bits of the primitive operations -/

theorem allOnes_testBit (i : Nat) : allOnes.testBit i = decide (i < 64) := by
  unfold allOnes
  exact Nat.testBit_two_pow_sub_one 64 i

theorem not64_testBit (x i : Nat) :
    (not64 x).testBit i = (decide (i < 64) && !x.testBit i) := by
  have hx : x % 2 ^ 64 < 2 ^ 64 := Nat.mod_lt _ (by decide)
  have h : not64 x = 2 ^ 64 - (x % 2 ^ 64 + 1) := by unfold not64; omega
  rw [h, Nat.testBit_two_pow_sub_succ hx, Nat.testBit_mod_two_pow]
  by_cases hi : i < 64 <;> simp [hi]

theorem shl64_testBit (wide : Nat → Nat → Nat) (x n i : Nat) (hn : n < 64) :
    (shl64 wide x n).testBit i = (decide (i < 64) && (decide (n ≤ i) && x.testBit (i - n))) := by
  unfold shl64
  rw [if_pos hn, Nat.testBit_mod_two_pow, Nat.testBit_shiftLeft]

/-! ## The range functions `getBits`, `setBits`, `clearBits` -/

theorem wrapCount_allOnes : wrapCount allOnes 64 = allOnes := by decide

/-- The mask the three range functions build from `distance`: bits `0 .. d - 1`. -/
theorem rangeMask_testBit (wide : Nat → Nat → Nat) (hw : wide allOnes 64 = allOnes)
    (d i : Nat) (hd : d ≤ 64) :
    (if d ≠ 64 then not64 (shl64 wide allOnes d) else shl64 wide allOnes d).testBit i
      = decide (i < d) := by
  by_cases h : d = 64
  · subst h
    have : shl64 wide allOnes 64 = allOnes := by
      unfold shl64; rw [if_neg (by decide)]; exact hw
    rw [if_neg (by simp), this, allOnes_testBit]
  · have hlt : d < 64 := by omega
    rw [if_pos h, not64_testBit, shl64_testBit wide _ _ _ hlt, allOnes_testBit]
    by_cases h2 : i < d
    · have h1 : i < 64 := by omega
      have h3 : ¬ d ≤ i := by omega
      simp [h1, h2, h3]
    · have h3 : d ≤ i := by omega
      by_cases h1 : i < 64
      · have h4 : i - d < 64 := by omega
        simp [h1, h2, h3, h4]
      · simp [h1, h2]

theorem getBits_testBit (wide : Nat → Nat → Nat) (hw : wide allOnes 64 = allOnes)
    (low high source : Nat) (hlh : low ≤ high) (hh : high ≤ 63) :
    ∃ r, getBits wide low high source = some r ∧
      ∀ i, r.testBit i = (decide (i ≤ high - low) && source.testBit (low + i)) := by
  refine ⟨_, by unfold getBits; rw [if_pos ⟨by omega, hlh⟩], ?_⟩
  intro i
  rw [Nat.testBit_and, rangeMask_testBit wide hw _ _ (by omega), Nat.testBit_shiftRight]
  by_cases h : i ≤ high - low <;> simp [h] <;> omega


/-- The mask after `x = x << low`: exactly the bits `low .. high`. -/
theorem placedMask_testBit (wide : Nat → Nat → Nat) (hw : wide allOnes 64 = allOnes)
    (low high i : Nat) (hlh : low ≤ high) (hh : high ≤ 63) :
    (shl64 wide (if high - low + 1 ≠ 64 then not64 (shl64 wide allOnes (high - low + 1))
        else shl64 wide allOnes (high - low + 1)) low).testBit i
      = decide (low ≤ i ∧ i ≤ high) := by
  rw [shl64_testBit wide _ _ _ (by omega), rangeMask_testBit wide hw _ _ (by omega)]
  by_cases h : low ≤ i ∧ i ≤ high
  · have h1 : i < 64 := by omega
    have h2 : low ≤ i := h.1
    have h3 : i - low < high - low + 1 := by omega
    simp [h, h1, h2, h3]
  · by_cases h2 : low ≤ i
    · have h3 : ¬ i - low < high - low + 1 := by omega
      have h4 : high < i := by omega
      simp [h2, h3, h4]
    · simp [h, h2]

/-- The word `(2 ^ d - 1) << low` has exactly the bits `low .. low + d - 1`. -/
theorem fieldMask_testBit (low high i : Nat) (hlh : low ≤ high) :
    ((2 ^ (high - low + 1) - 1) <<< low).testBit i = decide (low ≤ i ∧ i ≤ high) := by
  rw [Nat.testBit_shiftLeft, Nat.testBit_two_pow_sub_one]
  by_cases h : low ≤ i ∧ i ≤ high
  · have h2 : low ≤ i := h.1
    have h3 : i - low < high - low + 1 := by omega
    simp [h, h2, h3]
  · by_cases h2 : low ≤ i
    · have h3 : ¬ i - low < high - low + 1 := by omega
      have h4 : high < i := by omega
      simp [h2, h3, h4]
    · simp [h, h2]

theorem fieldMask_lt (low high : Nat) (hlh : low ≤ high) (hh : high ≤ 63) :
    (2 ^ (high - low + 1) - 1) <<< low < 2 ^ 64 := by
  apply Nat.lt_pow_two_of_testBit
  intro i hi
  rw [fieldMask_testBit low high i hlh]
  simp; omega

theorem setBits_testBit (wide : Nat → Nat → Nat) (hw : wide allOnes 64 = allOnes)
    (low high source : Nat) (hlh : low ≤ high) (hh : high ≤ 63) :
    ∃ r, setBits wide low high source = some r ∧
      ∀ i, r.testBit i = (decide (low ≤ i ∧ i ≤ high) || source.testBit i) := by
  refine ⟨_, by unfold setBits; rw [if_pos ⟨by omega, hlh⟩], ?_⟩
  intro i
  rw [Nat.testBit_or, placedMask_testBit wide hw low high i hlh hh, Bool.or_comm]

theorem clearBits_testBit (wide : Nat → Nat → Nat) (hw : wide allOnes 64 = allOnes)
    (low high source : Nat) (hlh : low ≤ high) (hh : high ≤ 63) (hs : source < 2 ^ 64) :
    ∃ r, clearBits wide low high source = some r ∧
      ∀ i, r.testBit i = (!decide (low ≤ i ∧ i ≤ high) && source.testBit i) := by
  refine ⟨_, by unfold clearBits; rw [if_pos ⟨by omega, hlh⟩], ?_⟩
  intro i
  rw [Nat.testBit_and, not64_testBit, placedMask_testBit wide hw low high i hlh hh]
  by_cases h1 : i < 64
  · simp [h1, Bool.and_comm]
  · have : source.testBit i = false :=
      Nat.testBit_lt_two_pow (lt_of_lt_of_le hs (Nat.pow_le_pow_right (by decide) (by omega)))
    simp [this]

/-- At full width `getBits` returns `source` masked by the word the shift by 64
leaves, whatever that word is. -/
theorem getBits_full_width_and (wide : Nat → Nat → Nat) (source : Nat) :
    getBits wide 0 63 source = some (source &&& wide allOnes 64) := by
  unfold getBits shl64
  simp

theorem getBits_eq_mod (wide : Nat → Nat → Nat) (hw : wide allOnes 64 = allOnes)
    (low high source : Nat) (hlh : low ≤ high) (hh : high ≤ 63) :
    getBits wide low high source = some ((source >>> low) % 2 ^ (high - low + 1)) := by
  obtain ⟨r, hr, hb⟩ := getBits_testBit wide hw low high source hlh hh
  rw [hr]
  congr 1
  apply Nat.eq_of_testBit_eq
  intro i
  rw [hb, Nat.testBit_mod_two_pow, Nat.testBit_shiftRight]
  by_cases h : i ≤ high - low
  · have h2 : i < high - low + 1 := by omega
    simp [h, h2]
  · have h2 : ¬ i < high - low + 1 := by omega
    simp [h, h2]

/-- A range narrower than the word never reaches the over-wide shift. -/
theorem getBits_narrow (wide wide2 : Nat → Nat → Nat) (low high source : Nat)
    (h : high - low + 1 < 64) :
    getBits wide low high source = getBits wide2 low high source := by
  unfold getBits shl64
  simp only [if_pos h]

theorem setBits_narrow (wide wide2 : Nat → Nat → Nat) (low high source : Nat)
    (h : high - low + 1 < 64) :
    setBits wide low high source = setBits wide2 low high source := by
  unfold setBits shl64
  by_cases hg : high < 64 ∧ low ≤ high
  · have hl : low < 64 := by omega
    simp only [if_pos hg, if_pos h, if_pos hl]
  · simp only [if_neg hg]

theorem clearBits_narrow (wide wide2 : Nat → Nat → Nat) (low high source : Nat)
    (h : high - low + 1 < 64) :
    clearBits wide low high source = clearBits wide2 low high source := by
  unfold clearBits shl64
  by_cases hg : high < 64 ∧ low ≤ high
  · have hl : low < 64 := by omega
    simp only [if_pos hg, if_pos h, if_pos hl]
  · simp only [if_neg hg]

/-- On a range narrower than the word `getBits` returns
`(source >> low) mod 2 ^ (high - low + 1)`, whatever an over-wide shift leaves. -/
theorem getBits_narrow_range (wide : Nat → Nat → Nat) (low high source : Nat)
    (hlh : low ≤ high) (hh : high ≤ 63) (hnar : high - low + 1 < 64) :
    ∃ r, getBits wide low high source = some r ∧
      r = (source >>> low) % 2 ^ (high - low + 1) ∧
      (∀ i, i ≤ high - low → r.testBit i = source.testBit (low + i)) ∧
      (∀ i, high - low < i → r.testBit i = false) := by
  obtain ⟨r, hr, hb⟩ := getBits_testBit wrapCount wrapCount_allOnes low high source hlh hh
  have hv := getBits_eq_mod wrapCount wrapCount_allOnes low high source hlh hh
  refine ⟨r, (getBits_narrow wide wrapCount low high source hnar).trans hr,
    Option.some.inj (hr.symm.trans hv), ?_, ?_⟩
  · intro i hi
    rw [hb]; simp [hi]
  · intro i hi
    have h : ¬ i ≤ high - low := by omega
    rw [hb]; simp [h]

/-- On a range narrower than the word `setBits` sets exactly the bits `low .. high`,
whatever an over-wide shift leaves. -/
theorem setBits_narrow_range (wide : Nat → Nat → Nat) (low high source : Nat)
    (hlh : low ≤ high) (hh : high ≤ 63) (hnar : high - low + 1 < 64) :
    ∃ r, setBits wide low high source = some r ∧
      r = source ||| ((2 ^ (high - low + 1) - 1) <<< low) ∧
      (∀ i, low ≤ i → i ≤ high → r.testBit i = true) ∧
      (∀ i, i < low ∨ high < i → r.testBit i = source.testBit i) := by
  obtain ⟨r, hr, hb⟩ := setBits_testBit wrapCount wrapCount_allOnes low high source hlh hh
  refine ⟨r, (setBits_narrow wide wrapCount low high source hnar).trans hr, ?_, ?_, ?_⟩
  · apply Nat.eq_of_testBit_eq
    intro i
    rw [hb, Nat.testBit_or, fieldMask_testBit low high i hlh, Bool.or_comm]
  · intro i h1 h2
    rw [hb]; simp [h1, h2]
  · intro i hi
    have h : ¬ (low ≤ i ∧ i ≤ high) := by omega
    rw [hb]; simp [h]

/-- On a range narrower than the word `clearBits` clears exactly the bits
`low .. high` of a 64-bit `source`, whatever an over-wide shift leaves. -/
theorem clearBits_narrow_range (wide : Nat → Nat → Nat) (low high source : Nat)
    (hlh : low ≤ high) (hh : high ≤ 63) (hnar : high - low + 1 < 64)
    (hs : source < 2 ^ 64) :
    ∃ r, clearBits wide low high source = some r ∧
      r = source &&& (2 ^ 64 - 1 - (2 ^ (high - low + 1) - 1) <<< low) ∧
      (∀ i, low ≤ i → i ≤ high → r.testBit i = false) ∧
      (∀ i, i < low ∨ high < i → r.testBit i = source.testBit i) := by
  obtain ⟨r, hr, hb⟩ :=
    clearBits_testBit wrapCount wrapCount_allOnes low high source hlh hh hs
  refine ⟨r, (clearBits_narrow wide wrapCount low high source hnar).trans hr, ?_, ?_, ?_⟩
  · apply Nat.eq_of_testBit_eq
    intro i
    have hm := fieldMask_lt low high hlh hh
    have hn : 2 ^ 64 - 1 - (2 ^ (high - low + 1) - 1) <<< low
        = not64 ((2 ^ (high - low + 1) - 1) <<< low) := by
      unfold not64; rw [Nat.mod_eq_of_lt hm]
    rw [hb, Nat.testBit_and, hn, not64_testBit, fieldMask_testBit low high i hlh]
    by_cases h1 : i < 64
    · simp [h1, Bool.and_comm]
    · have : source.testBit i = false :=
        Nat.testBit_lt_two_pow (lt_of_lt_of_le hs (Nat.pow_le_pow_right (by decide) (by omega)))
      simp [this]
  · intro i h1 h2
    rw [hb]; simp [h1, h2]
  · intro i hi
    have h : ¬ (low ≤ i ∧ i ≤ high) := by omega
    rw [hb]; simp [h]

theorem setBits_full_width_or (wide : Nat → Nat → Nat) (source : Nat) :
    setBits wide 0 63 source = some (source ||| wide allOnes 64 % 2 ^ 64) := by
  unfold setBits shl64
  simp

theorem clearBits_full_width_and (wide : Nat → Nat → Nat) (source : Nat) :
    clearBits wide 0 63 source = some (source &&& not64 (wide allOnes 64 % 2 ^ 64)) := by
  unfold clearBits shl64
  simp

/-- C1, evaluated at the full-width range where the shift by 64 leaves 0:
`getBits(0, 63, 1)` returns 0, where `(1 >> 0) mod 2 ^ 64` is 1; bit 0 of the
source is set and bit 0 of the result is not. -/
theorem getBits_full_width_loses_bits :
    getBits shiftOut 0 63 1 = some 0 ∧ (1 >>> 0) % 2 ^ (63 - 0 + 1) = 1 ∧
      Nat.testBit 1 (0 + 0) = true ∧ Nat.testBit 0 0 = false := by
  decide

/-- C2, evaluated where the shift by 64 leaves 0: `getBits(0, 63, 0x0123456789abcdef)`
returns 0, not the source. -/
theorem getBits_full_width_not_identity :
    getBits shiftOut 0 63 0x0123456789abcdef = some 0 ∧
      (0 : Nat) ≠ 0x0123456789abcdef := by
  decide

/-- C3, evaluated at the full-width range where the shift by 64 leaves 0:
`setBits(0, 63, 1)` returns 1, not `1 | 0xFFFFFFFFFFFFFFFF`; bit 63 of the result
is 0. -/
theorem setBits_full_width_sets_nothing :
    setBits shiftOut 0 63 1 = some 1 ∧
      (1 : Nat) ≠ 1 ||| ((2 ^ (63 - 0 + 1) - 1) <<< 0) ∧ Nat.testBit 1 63 = false := by
  decide

/-- C4, evaluated at the full-width range where the shift by 64 leaves 0:
`clearBits(0, 63, 1)` returns 1, not 1 AND the complement of the full mask, which
is 0; bit 0 of the result is 1. -/
theorem clearBits_full_width_clears_nothing :
    clearBits shiftOut 0 63 1 = some 1 ∧
      (1 : Nat) ≠ 1 &&& (2 ^ 64 - 1 - (2 ^ (63 - 0 + 1) - 1) <<< 0) ∧
      Nat.testBit 1 0 = true := by
  decide

/-! ## The single-bit function `assignOneBit` -/

theorem one_testBit (j : Nat) : Nat.testBit 1 j = decide (j = 0) := by
  have h := @Nat.testBit_two_pow 0 j
  rw [Nat.pow_zero] at h
  rw [h]
  by_cases hj : j = 0
  · simp [hj]
  · have : ¬ 0 = j := fun e => hj e.symm
    simp [hj, this]

/-- The word `1 << bitNum` of `assignOneBit` has the single bit `bitNum`. -/
theorem oneBit_testBit (wide : Nat → Nat → Nat) (bitNum i : Nat) (hlt : bitNum < 64) :
    (shl64 wide ((0 + 1) % 2 ^ 64) bitNum).testBit i = decide (i = bitNum) := by
  have h1 : (0 + 1) % 2 ^ 64 = 1 := by decide
  rw [shl64_testBit wide _ _ _ hlt, h1, one_testBit]
  by_cases h : i = bitNum
  · subst h
    simp [hlt]
  · by_cases h2 : bitNum ≤ i
    · have h3 : ¬ i - bitNum = 0 := by omega
      simp [h, h3]
    · simp [h, h2]

theorem testBit_high_of_lt (source i : Nat) (hs : source < 2 ^ 64) (hi : ¬ i < 64) :
    source.testBit i = false :=
  Nat.testBit_lt_two_pow (lt_of_lt_of_le hs (Nat.pow_le_pow_right (by decide) (by omega)))

/-- C5. For a 64-bit `source`, `bitNum ≤ 63` and `bitVal` 0 or 1,
`assignOneBit(bitNum, bitVal, source)` has bit `bitNum` equal to `bitVal` and every
other bit equal to the bit of `source`; this holds whatever an over-wide shift
leaves, since no shift of this function is over-wide. -/
theorem assignOneBit_assigns (wide : Nat → Nat → Nat) (bitNum bitVal source : Nat)
    (hn : bitNum ≤ 63) (hv : bitVal = 0 ∨ bitVal = 1) (hs : source < 2 ^ 64) :
    ∃ r, assignOneBit wide bitNum bitVal source = some r ∧
      r.testBit bitNum = decide (bitVal = 1) ∧
      (∀ i, i ≠ bitNum → r.testBit i = source.testBit i) := by
  have hlt : bitNum < 64 := by omega
  rcases hv with h0 | h1
  · subst h0
    refine ⟨_, by unfold assignOneBit; rw [if_pos ⟨hlt, Or.inl rfl⟩, if_pos rfl], ?_, ?_⟩
    · rw [Nat.testBit_and, not64_testBit, Nat.zero_shiftRight, oneBit_testBit wide _ _ hlt]
      simp
    · intro i hi
      rw [Nat.testBit_and, not64_testBit, Nat.zero_shiftRight, oneBit_testBit wide _ _ hlt]
      by_cases h1 : i < 64
      · simp [h1, hi]
      · simp [testBit_high_of_lt source i hs h1]
  · subst h1
    refine ⟨_, by unfold assignOneBit; rw [if_pos ⟨hlt, Or.inr rfl⟩, if_neg (by decide)], ?_, ?_⟩
    · rw [Nat.testBit_or, oneBit_testBit wide _ _ hlt]
      simp
    · intro i hi
      rw [Nat.testBit_or, oneBit_testBit wide _ _ hlt]
      simp [hi]

theorem assignOneBit_assigns_witness :
    (4 ≤ 63 ∧ (0xff : Nat) < 2 ^ 64) ∧
      ∃ r, assignOneBit wrapCount 4 0 0xff = some r ∧
        r.testBit 4 = decide (0 = 1) ∧ (∀ i, i ≠ 4 → r.testBit i = Nat.testBit 0xff i) :=
  ⟨by decide, assignOneBit_assigns wrapCount 4 0 0xff (by decide) (Or.inl rfl) (by decide)⟩

/-! ## The byte functions `getByteNumber`, `putByteNumber`, `buildWord` -/

theorem getByteNumber_testBit (wide : Nat → Nat → Nat) (byteNum source : Nat)
    (hn : byteNum ≤ 7) :
    ∃ r, getByteNumber wide byteNum source = some r ∧
      ∀ i, r.testBit i = (decide (i < 8) && source.testBit (8 * byteNum + i)) := by
  refine ⟨_, by unfold getByteNumber; rw [if_pos (by omega)], ?_⟩
  intro i
  rw [Nat.testBit_mod_two_pow _ 8, Nat.testBit_and, Nat.testBit_shiftRight, not64_testBit,
    shl64_testBit wide _ _ _ (by decide), allOnes_testBit, Nat.mul_comm byteNum 8]
  by_cases h : i < 8
  · have h1 : i < 64 := by omega
    have h2 : ¬ 8 ≤ i := by omega
    simp [h, h1, h2]
  · simp [h]

theorem getByteNumber_eq_mod (wide : Nat → Nat → Nat) (byteNum source : Nat)
    (hn : byteNum ≤ 7) :
    getByteNumber wide byteNum source = some ((source >>> (8 * byteNum)) % 256) := by
  obtain ⟨r, hr, hb⟩ := getByteNumber_testBit wide byteNum source hn
  rw [hr]
  congr 1
  apply Nat.eq_of_testBit_eq
  intro i
  rw [hb, Nat.testBit_mod_two_pow _ 8, Nat.testBit_shiftRight]

/-- C6. For `byteNum ≤ 7`, `getByteNumber(byteNum, source)` returns
`(source >> (8 * byteNum)) mod 256`, the byte in bits `8 * byteNum .. 8 * byteNum + 7`
of `source`, whatever an over-wide shift leaves. -/
theorem getByteNumber_extracts_byte (wide : Nat → Nat → Nat) (byteNum source : Nat)
    (hn : byteNum ≤ 7) :
    ∃ r, getByteNumber wide byteNum source = some r ∧
      r = (source >>> (8 * byteNum)) % 256 ∧
      r < 256 ∧
      (∀ i, i < 8 → r.testBit i = source.testBit (8 * byteNum + i)) := by
  obtain ⟨r, hr, hb⟩ := getByteNumber_testBit wide byteNum source hn
  have hv : r = (source >>> (8 * byteNum)) % 256 :=
    Option.some.inj (hr.symm.trans (getByteNumber_eq_mod wide byteNum source hn))
  refine ⟨r, hr, hv, ?_, ?_⟩
  · rw [hv]; exact Nat.mod_lt _ (by decide)
  · intro i hi
    rw [hb]; simp [hi]

theorem getByteNumber_extracts_byte_witness :
    getByteNumber wrapCount 3 0x0011223344556677 = some 0x44 := by
  obtain ⟨r, hr, hv, _⟩ :=
    getByteNumber_extracts_byte wrapCount 3 0x0011223344556677 (by decide)
  rw [hr, hv]
  decide


theorem testBit_byte_high (byteVal i : Nat) (hb : byteVal < 256) (hi : ¬ i < 8) :
    byteVal.testBit i = false := by
  have h8 : byteVal < 2 ^ 8 := by omega
  have hp : 2 ^ 8 ≤ 2 ^ i := Nat.pow_le_pow_right (by decide) (by omega)
  exact Nat.testBit_lt_two_pow (Nat.lt_of_lt_of_le h8 hp)

theorem putByteNumber_testBit (wide : Nat → Nat → Nat) (byteNum byteVal source : Nat)
    (hn : byteNum ≤ 7) (hb : byteVal < 256) (hs : source < 2 ^ 64) :
    ∃ r, putByteNumber wide byteNum byteVal source = some r ∧
      ∀ i, r.testBit i =
        if 8 * byteNum ≤ i ∧ i < 8 * byteNum + 8 then byteVal.testBit (i - 8 * byteNum)
        else source.testBit i := by
  refine ⟨_, by unfold putByteNumber; rw [if_pos (by omega)], ?_⟩
  intro i
  have hbits : byteNum * 8 < 64 := by omega
  rw [Nat.testBit_or, Nat.testBit_and, not64_testBit, shl64_testBit wide _ _ _ hbits,
    not64_testBit, shl64_testBit wide _ _ _ (by decide : 8 < 64), allOnes_testBit,
    shl64_testBit wide _ _ _ hbits, Nat.mul_comm byteNum 8]
  by_cases h64 : i < 64
  · by_cases hlo : 8 * byteNum ≤ i
    · by_cases hhi : i < 8 * byteNum + 8
      · have h1 : i - 8 * byteNum < 64 := by omega
        have h2 : ¬ 8 ≤ i - 8 * byteNum := by omega
        simp [h64, hlo, hhi, h1, h2]
      · have h2 : 8 ≤ i - 8 * byteNum := by omega
        have h1 : i - 8 * byteNum < 64 := by omega
        have h3 : ¬ i - 8 * byteNum < 8 := by omega
        have h4 : i - 8 * byteNum - 8 < 64 := by omega
        simp [h64, hlo, hhi, h1, h2, h4, testBit_byte_high byteVal _ hb h3]
    · have hhi : ¬ (8 * byteNum ≤ i ∧ i < 8 * byteNum + 8) := by omega
      simp [h64, hlo]
  · have hhi : ¬ (8 * byteNum ≤ i ∧ i < 8 * byteNum + 8) := by omega
    simp [h64, hhi, testBit_high_of_lt source i hs h64]


/-- C7. For a 64-bit `source`, a byte `byteVal` and `byteNum ≤ 7`, the word
`r = putByteNumber(byteNum, byteVal, source)` has `getByteNumber(byteNum, r) = byteVal`
and `getByteNumber(m, r) = getByteNumber(m, source)` for every other `m ≤ 7`. -/
theorem putByteNumber_replaces_byte (wide : Nat → Nat → Nat) (byteNum byteVal source : Nat)
    (hn : byteNum ≤ 7) (hb : byteVal < 256) (hs : source < 2 ^ 64) :
    ∃ r, putByteNumber wide byteNum byteVal source = some r ∧
      getByteNumber wide byteNum r = some byteVal ∧
      (∀ m, m ≤ 7 → m ≠ byteNum → getByteNumber wide m r = getByteNumber wide m source) := by
  obtain ⟨r, hr, hbits⟩ := putByteNumber_testBit wide byteNum byteVal source hn hb hs
  refine ⟨r, hr, ?_, ?_⟩
  · obtain ⟨g, hg, hgb⟩ := getByteNumber_testBit wide byteNum r hn
    rw [hg]
    congr 1
    apply Nat.eq_of_testBit_eq
    intro i
    rw [hgb, hbits]
    by_cases hi : i < 8
    · have h1 : 8 * byteNum ≤ 8 * byteNum + i ∧ 8 * byteNum + i < 8 * byteNum + 8 := by omega
      rw [if_pos h1, Nat.add_sub_cancel_left]
      simp [hi]
    · simp [hi, testBit_byte_high byteVal i hb hi]
  · intro m hm hne
    obtain ⟨g, hg, hgb⟩ := getByteNumber_testBit wide m r hm
    obtain ⟨g2, hg2, hgb2⟩ := getByteNumber_testBit wide m source hm
    rw [hg, hg2]
    congr 1
    apply Nat.eq_of_testBit_eq
    intro i
    rw [hgb, hgb2, hbits]
    by_cases hi : i < 8
    · have h1 : ¬ (8 * byteNum ≤ 8 * m + i ∧ 8 * m + i < 8 * byteNum + 8) := by omega
      rw [if_neg h1]
    · simp [hi]

/-- Witness of C7 at the example of the source's comment. -/
theorem putByteNumber_replaces_byte_witness :
    putByteNumber wrapCount 3 0x00 0x0011223344556677 = some 0x0011223300556677 ∧
      getByteNumber wrapCount 3 0x0011223300556677 = some 0x00 := by
  obtain ⟨r, hr, hg, _⟩ := putByteNumber_replaces_byte wrapCount 3 0x00 0x0011223344556677
    (by decide) (by decide) (by decide)
  have hd : putByteNumber wrapCount 3 0x00 0x0011223344556677 = some 0x0011223300556677 := by
    decide
  have hrv : r = 0x0011223300556677 := Option.some.inj (hr.symm.trans hd)
  subst hrv
  exact ⟨hr, hg⟩

/-- C8. Round trip: for a 64-bit `w` and `n ≤ 7`,
`putByteNumber(n, getByteNumber(n, w), w)` returns `w`. -/
theorem putByteNumber_getByteNumber_roundtrip (wide : Nat → Nat → Nat) (n w : Nat)
    (hn : n ≤ 7) (hw : w < 2 ^ 64) :
    ∃ b, getByteNumber wide n w = some b ∧ putByteNumber wide n b w = some w := by
  obtain ⟨b, hb, hgb⟩ := getByteNumber_testBit wide n w hn
  have hlt : b < 256 := by
    have hv := Option.some.inj (hb.symm.trans (getByteNumber_eq_mod wide n w hn))
    rw [hv]
    exact Nat.mod_lt _ (by decide)
  obtain ⟨r, hr, hbits⟩ := putByteNumber_testBit wide n b w hn hlt hw
  refine ⟨b, hb, ?_⟩
  rw [hr]
  congr 1
  apply Nat.eq_of_testBit_eq
  intro i
  rw [hbits]
  by_cases h : 8 * n ≤ i ∧ i < 8 * n + 8
  · have h1 : i - 8 * n < 8 := by omega
    have h2 : 8 * n + (i - 8 * n) = i := by omega
    rw [if_pos h, hgb, h2]
    simp [h1]
  · rw [if_neg h]

theorem putByteNumber_getByteNumber_roundtrip_witness :
    (3 ≤ 7 ∧ (0x0011223344556677 : Nat) < 2 ^ 64) ∧
      ∃ b, getByteNumber wrapCount 3 0x0011223344556677 = some b ∧
        putByteNumber wrapCount 3 b 0x0011223344556677 = some 0x0011223344556677 :=
  ⟨by decide,
    putByteNumber_getByteNumber_roundtrip wrapCount 3 0x0011223344556677 (by decide) (by decide)⟩


/-- One assembly step of `buildWord`, `x = x << 8; x = x | b`, appends the byte `b`
below a word `x` that fits in 56 bits. -/
theorem buildWord_step (wide : Nat → Nat → Nat) (x b : Nat) (hx : x < 2 ^ 56)
    (hb : b < 256) : shl64 wide x 8 ||| b = x * 256 + b := by
  have h8 : b < 2 ^ 8 := by omega
  have hsh : shl64 wide x 8 = x <<< 8 := by
    unfold shl64
    rw [if_pos (by decide), Nat.shiftLeft_eq]
    apply Nat.mod_eq_of_lt
    omega
  rw [hsh, Nat.shiftLeft_eq, Nat.mul_comm x (2 ^ 8), ← Nat.mul_add_lt_is_or h8 x]

theorem buildWord_eq_sum (wide : Nat → Nat → Nat) (b0 b1 b2 b3 b4 b5 b6 b7 : Nat)
    (h0 : b0 < 256) (h1 : b1 < 256) (h2 : b2 < 256) (h3 : b3 < 256)
    (h4 : b4 < 256) (h5 : b5 < 256) (h6 : b6 < 256) (h7 : b7 < 256) :
    buildWord wide b0 b1 b2 b3 b4 b5 b6 b7
      = b0 + b1 * 256 + b2 * 256 ^ 2 + b3 * 256 ^ 3 + b4 * 256 ^ 4 + b5 * 256 ^ 5
        + b6 * 256 ^ 6 + b7 * 256 ^ 7 := by
  unfold buildWord
  simp only [Nat.zero_or]
  rw [buildWord_step wide _ _ (by omega) h6, buildWord_step wide _ _ (by omega) h5,
    buildWord_step wide _ _ (by omega) h4, buildWord_step wide _ _ (by omega) h3,
    buildWord_step wide _ _ (by omega) h2, buildWord_step wide _ _ (by omega) h1,
    buildWord_step wide _ _ (by omega) h0]
  omega


/-- C9. For bytes `b0 .. b7`, `buildWord(b0, ..., b7)` is the sum of `bi * 256 ^ i`
(`b0` least significant, `b7` most significant), and `getByteNumber(i, ·)` of it
returns `bi` for each `i` in `0 .. 7`. -/
theorem buildWord_bytes (wide : Nat → Nat → Nat) (b0 b1 b2 b3 b4 b5 b6 b7 : Nat)
    (h0 : b0 < 256) (h1 : b1 < 256) (h2 : b2 < 256) (h3 : b3 < 256)
    (h4 : b4 < 256) (h5 : b5 < 256) (h6 : b6 < 256) (h7 : b7 < 256) :
    buildWord wide b0 b1 b2 b3 b4 b5 b6 b7
        = b0 + b1 * 256 + b2 * 256 ^ 2 + b3 * 256 ^ 3 + b4 * 256 ^ 4 + b5 * 256 ^ 5
          + b6 * 256 ^ 6 + b7 * 256 ^ 7 ∧
      getByteNumber wide 0 (buildWord wide b0 b1 b2 b3 b4 b5 b6 b7) = some b0 ∧
      getByteNumber wide 1 (buildWord wide b0 b1 b2 b3 b4 b5 b6 b7) = some b1 ∧
      getByteNumber wide 2 (buildWord wide b0 b1 b2 b3 b4 b5 b6 b7) = some b2 ∧
      getByteNumber wide 3 (buildWord wide b0 b1 b2 b3 b4 b5 b6 b7) = some b3 ∧
      getByteNumber wide 4 (buildWord wide b0 b1 b2 b3 b4 b5 b6 b7) = some b4 ∧
      getByteNumber wide 5 (buildWord wide b0 b1 b2 b3 b4 b5 b6 b7) = some b5 ∧
      getByteNumber wide 6 (buildWord wide b0 b1 b2 b3 b4 b5 b6 b7) = some b6 ∧
      getByteNumber wide 7 (buildWord wide b0 b1 b2 b3 b4 b5 b6 b7) = some b7 := by
  have hsum := buildWord_eq_sum wide b0 b1 b2 b3 b4 b5 b6 b7 h0 h1 h2 h3 h4 h5 h6 h7
  have key : ∀ n b, n ≤ 7 →
      (buildWord wide b0 b1 b2 b3 b4 b5 b6 b7 >>> (8 * n)) % 256 = b →
      getByteNumber wide n (buildWord wide b0 b1 b2 b3 b4 b5 b6 b7) = some b := by
    intro n b hn hb
    rw [getByteNumber_eq_mod wide n _ hn, hb]
  refine ⟨hsum, key 0 b0 (by decide) ?_, key 1 b1 (by decide) ?_, key 2 b2 (by decide) ?_,
    key 3 b3 (by decide) ?_, key 4 b4 (by decide) ?_, key 5 b5 (by decide) ?_,
    key 6 b6 (by decide) ?_, key 7 b7 (by decide) ?_⟩ <;>
  · rw [hsum, Nat.shiftRight_eq_div_pow]
    omega

/-- Witness of C9 at the example of the specification. -/
theorem buildWord_bytes_witness :
    buildWord wrapCount 0x11 0x22 0x33 0x44 0x55 0x66 0x77 0x88 = 0x8877665544332211 ∧
      getByteNumber wrapCount 7
        (buildWord wrapCount 0x11 0x22 0x33 0x44 0x55 0x66 0x77 0x88) = some 0x88 := by
  obtain ⟨hsum, _, _, _, _, _, _, _, h7⟩ :=
    buildWord_bytes wrapCount 0x11 0x22 0x33 0x44 0x55 0x66 0x77 0x88
      (by decide) (by decide) (by decide) (by decide) (by decide) (by decide) (by decide)
      (by decide)
  exact ⟨hsum.trans (by decide), h7⟩

/-! ## The sign test `isNegative` -/

/-- C10. For a 64-bit `source`, `isNegative(source)` is true exactly when bit 63 of
`source` is 1, that is when `source ≥ 2 ^ 63`, that is when `source` read as a
two's-complement signed integer is below 0. -/
theorem isNegative_iff_sign_bit (source : Nat) (hs : source < 2 ^ 64) :
    (isNegative source = true ↔ source.testBit 63 = true) ∧
      (isNegative source = true ↔ 2 ^ 63 ≤ source) ∧
      (isNegative source = true ↔ toSigned source < 0) := by
  have hneg : isNegative source = true ↔ 2 ^ 63 ≤ source := by
    unfold isNegative
    simp only [Nat.shiftRight_eq_div_pow]
    constructor
    · intro h
      by_cases h1 : source / 2 ^ 63 = 1
      · omega
      · rw [if_neg h1] at h
        exact absurd h (by decide)
    · intro h
      have h1 : source / 2 ^ 63 = 1 := by omega
      rw [if_pos h1]
  refine ⟨?_, hneg, ?_⟩
  · rw [hneg, Nat.testBit_to_div_mod]
    simp only [decide_eq_true_eq]
    omega
  · rw [hneg]
    unfold toSigned
    by_cases h : source < 2 ^ 63
    · rw [if_pos h]
      omega
    · rw [if_neg h]
      omega

/-- Witnesses of C10: `0x8000000000000000` is negative and `0x7FFFFFFFFFFFFFFF` is not. -/
theorem isNegative_iff_sign_bit_witness :
    isNegative 0x8000000000000000 = true ∧ isNegative 0x7FFFFFFFFFFFFFFF = false := by
  refine ⟨(isNegative_iff_sign_bit 0x8000000000000000 (by decide)).2.1.mpr (by decide), ?_⟩
  have h := (isNegative_iff_sign_bit 0x7FFFFFFFFFFFFFFF (by decide)).2.1
  cases hb : isNegative 0x7FFFFFFFFFFFFFFF
  · rfl
  · exact absurd (h.mp hb) (by decide)


/-! ## Assertions -/

/-- C12. With assertions enabled `getBits`, `setBits` and `clearBits` abort exactly
when `high ≥ 64` or `low > high`, `assignOneBit` exactly when `bitNum ≥ 64` or
`bitVal` is neither 0 nor 1, `getByteNumber` and `putByteNumber` exactly when
`byteNum ≥ 8`; on every other input each returns a value. -/
theorem asserts_abort_iff (wide : Nat → Nat → Nat) :
    (∀ low high source, (getBits wide low high source = none ↔ (64 ≤ high ∨ high < low)) ∧
      ((getBits wide low high source).isSome = true ↔ (high < 64 ∧ low ≤ high))) ∧
    (∀ low high source, (setBits wide low high source = none ↔ (64 ≤ high ∨ high < low)) ∧
      ((setBits wide low high source).isSome = true ↔ (high < 64 ∧ low ≤ high))) ∧
    (∀ low high source, (clearBits wide low high source = none ↔ (64 ≤ high ∨ high < low)) ∧
      ((clearBits wide low high source).isSome = true ↔ (high < 64 ∧ low ≤ high))) ∧
    (∀ bitNum bitVal source,
      (assignOneBit wide bitNum bitVal source = none ↔
        (64 ≤ bitNum ∨ ¬ (bitVal = 0 ∨ bitVal = 1))) ∧
      ((assignOneBit wide bitNum bitVal source).isSome = true ↔
        (bitNum < 64 ∧ (bitVal = 0 ∨ bitVal = 1)))) ∧
    (∀ byteNum source, (getByteNumber wide byteNum source = none ↔ 8 ≤ byteNum) ∧
      ((getByteNumber wide byteNum source).isSome = true ↔ byteNum < 8)) ∧
    (∀ byteNum byteVal source,
      (putByteNumber wide byteNum byteVal source = none ↔ 8 ≤ byteNum) ∧
      ((putByteNumber wide byteNum byteVal source).isSome = true ↔ byteNum < 8)) := by
  refine ⟨?_, ?_, ?_, ?_, ?_, ?_⟩
  · intro low high source
    unfold getBits
    by_cases h : high < 64 ∧ low ≤ high
    · rw [if_pos h]; simp; omega
    · rw [if_neg h]; simp; omega
  · intro low high source
    unfold setBits
    by_cases h : high < 64 ∧ low ≤ high
    · rw [if_pos h]; simp; omega
    · rw [if_neg h]; simp; omega
  · intro low high source
    unfold clearBits
    by_cases h : high < 64 ∧ low ≤ high
    · rw [if_pos h]; simp; omega
    · rw [if_neg h]; simp; omega
  · intro bitNum bitVal source
    unfold assignOneBit
    by_cases h : bitNum < 64 ∧ (bitVal = 0 ∨ bitVal = 1)
    · rw [if_pos h]
      by_cases h0 : bitVal = 0
      · rw [if_pos h0]; simp; omega
      · rw [if_neg h0]; simp; omega
    · rw [if_neg h]; simp; omega
  · intro byteNum source
    unfold getByteNumber
    by_cases h : byteNum < 64 / 8
    · rw [if_pos h]; simp; omega
    · rw [if_neg h]; simp; omega
  · intro byteNum byteVal source
    unfold putByteNumber
    by_cases h : byteNum < 64 / 8
    · rw [if_pos h]; simp; omega
    · rw [if_neg h]; simp; omega

/-! ## Full width -/

/-- C13, evaluated where the shift by 64 leaves 0: `getBits(0, 63, 1)` is 0,
`setBits(0, 63, 1)` is 1 and `clearBits(0, 63, 1)` is 1, not 1, `0xFFFFFFFFFFFFFFFF`
and 0. -/
theorem full_width_follows_wide_shift :
    getBits shiftOut 0 63 1 = some 0 ∧ setBits shiftOut 0 63 1 = some 1 ∧
      clearBits shiftOut 0 63 1 = some 1 := by
  decide

theorem two_pow_sub_one_testBit (d i : Nat) : (2 ^ d - 1).testBit i = decide (i < d) :=
  Nat.testBit_two_pow_sub_one d i

/-- On a range narrower than the word the bits just set read back as all ones,
whatever the over-wide shifts of the two calls leave. -/
theorem getBits_setBits_narrow (wide wide2 : Nat → Nat → Nat) (low high source : Nat)
    (hlh : low ≤ high) (hh : high ≤ 63) (hnar : high - low + 1 < 64) :
    ∃ s, setBits wide low high source = some s ∧
      getBits wide2 low high s = some (2 ^ (high - low + 1) - 1) := by
  obtain ⟨s, hs, hsb⟩ := setBits_testBit wrapCount wrapCount_allOnes low high source hlh hh
  obtain ⟨r, hr, hb⟩ := getBits_testBit wrapCount wrapCount_allOnes low high s hlh hh
  refine ⟨s, (setBits_narrow wide wrapCount low high source hnar).trans hs, ?_⟩
  rw [getBits_narrow wide2 wrapCount low high s hnar, hr]
  congr 1
  apply Nat.eq_of_testBit_eq
  intro i
  rw [hb, hsb, two_pow_sub_one_testBit]
  by_cases h : i ≤ high - low
  · have h2 : i < high - low + 1 := by omega
    have h3 : low ≤ low + i ∧ low + i ≤ high := by omega
    simp [h, h2, h3]
  · have h2 : ¬ i < high - low + 1 := by omega
    simp [h, h2]

/-- On a range narrower than the word the bits just cleared read back as 0,
whatever the over-wide shifts of the two calls leave. -/
theorem getBits_clearBits_narrow (wide wide2 : Nat → Nat → Nat) (low high source : Nat)
    (hlh : low ≤ high) (hh : high ≤ 63) (hnar : high - low + 1 < 64)
    (hs : source < 2 ^ 64) :
    ∃ c, clearBits wide low high source = some c ∧ getBits wide2 low high c = some 0 := by
  obtain ⟨c, hc, hcb⟩ :=
    clearBits_testBit wrapCount wrapCount_allOnes low high source hlh hh hs
  obtain ⟨r, hr, hrb⟩ := getBits_testBit wrapCount wrapCount_allOnes low high c hlh hh
  refine ⟨c, (clearBits_narrow wide wrapCount low high source hnar).trans hc, ?_⟩
  rw [getBits_narrow wide2 wrapCount low high c hnar, hr]
  congr 1
  apply Nat.eq_of_testBit_eq
  intro i
  rw [hrb, hcb, Nat.zero_testBit]
  by_cases h : i ≤ high - low
  · have h3 : low ≤ low + i ∧ low + i ≤ high := by omega
    simp [h, h3]
  · simp [h]

/-- At full width the read-back of `clearBits` through `getBits` is the source
masked by the words the two shifts by 64 leave, one per call. -/
theorem getBits_clearBits_full_width (wide wide2 : Nat → Nat → Nat) (source : Nat) :
    ∃ c, clearBits wide 0 63 source = some c ∧
      getBits wide2 0 63 c
        = some ((source &&& not64 (wide allOnes 64 % 2 ^ 64)) &&& wide2 allOnes 64) :=
  ⟨_, clearBits_full_width_and wide source, getBits_full_width_and wide2 _⟩

/-- C14, evaluated where the shift by 64 leaves 0: for the range 4..11 of
`0x0123456789abcdef` the bits just set read back as `0xff`, but `setBits(0, 63, 0)` is 0
and reads back as 0, so the two sides differ and the right side is not `2 ^ 8 - 1`. -/
theorem getBits_setBits_reads_differ :
    setBits shiftOut 4 11 0x0123456789abcdef = some 0x0123456789abcfff ∧
      getBits shiftOut 4 11 0x0123456789abcfff = some 0xff ∧
      setBits shiftOut 0 63 0 = some 0 ∧ getBits shiftOut 4 11 0 = some 0 := by
  decide

theorem assignOneBit_testBit (wide : Nat → Nat → Nat) (bitNum bitVal source : Nat)
    (hn : bitNum ≤ 63) (hv : bitVal = 0 ∨ bitVal = 1) (hs : source < 2 ^ 64) :
    ∃ r, assignOneBit wide bitNum bitVal source = some r ∧ r < 2 ^ 64 ∧
      ∀ i, r.testBit i = if i = bitNum then decide (bitVal = 1) else source.testBit i := by
  have hlt : bitNum < 64 := by omega
  have hbits : ∀ r : Nat,
      (∀ i, r.testBit i = if i = bitNum then decide (bitVal = 1) else source.testBit i) →
      r < 2 ^ 64 := by
    intro r hr
    apply Nat.lt_pow_two_of_testBit
    intro i hi
    have h1 : ¬ i = bitNum := by omega
    have h2 : ¬ i < 64 := by omega
    rw [hr, if_neg h1, testBit_high_of_lt source i hs h2]
  have key : ∃ r, assignOneBit wide bitNum bitVal source = some r ∧
      ∀ i, r.testBit i = if i = bitNum then decide (bitVal = 1) else source.testBit i := by
    rcases hv with h0 | h1
    · subst h0
      refine ⟨_, by unfold assignOneBit; rw [if_pos ⟨hlt, Or.inl rfl⟩, if_pos rfl], ?_⟩
      intro i
      rw [Nat.testBit_and, not64_testBit, Nat.zero_shiftRight, oneBit_testBit wide _ _ hlt]
      by_cases hi : i = bitNum
      · simp [hi]
      · by_cases h1 : i < 64
        · simp [h1, hi]
        · simp [hi, testBit_high_of_lt source i hs h1]
    · subst h1
      refine ⟨_, by unfold assignOneBit; rw [if_pos ⟨hlt, Or.inr rfl⟩, if_neg (by decide)], ?_⟩
      intro i
      rw [Nat.testBit_or, oneBit_testBit wide _ _ hlt]
      by_cases hi : i = bitNum
      · simp [hi]
      · simp [hi]
  obtain ⟨r, hr, hb⟩ := key
  exact ⟨r, hr, hbits r hb, hb⟩

/-- C16. For a 64-bit `source` and `bitNum ≤ 63`,
`assignOneBit(bitNum, 1, assignOneBit(bitNum, 0, source))` has bit `bitNum` equal to 1
and every other bit equal to the bit of `source`, and it is the word
`assignOneBit(bitNum, 1, source)`: the later assignment wins. -/
theorem assignOneBit_later_wins (wide : Nat → Nat → Nat) (bitNum source : Nat)
    (hn : bitNum ≤ 63) (hs : source < 2 ^ 64) :
    ∃ r0 r1, assignOneBit wide bitNum 0 source = some r0 ∧
      assignOneBit wide bitNum 1 r0 = some r1 ∧
      r1.testBit bitNum = true ∧
      (∀ i, i ≠ bitNum → r1.testBit i = source.testBit i) ∧
      assignOneBit wide bitNum 1 source = some r1 := by
  obtain ⟨r0, h0, hlt0, hb0⟩ := assignOneBit_testBit wide bitNum 0 source hn (Or.inl rfl) hs
  obtain ⟨r1, h1, _, hb1⟩ := assignOneBit_testBit wide bitNum 1 r0 hn (Or.inr rfl) hlt0
  obtain ⟨r2, h2, _, hb2⟩ := assignOneBit_testBit wide bitNum 1 source hn (Or.inr rfl) hs
  refine ⟨r0, r1, h0, h1, ?_, ?_, ?_⟩
  · rw [hb1]; simp
  · intro i hi
    rw [hb1, if_neg hi, hb0, if_neg hi]
  · rw [h2]
    congr 1
    apply Nat.eq_of_testBit_eq
    intro i
    rw [hb1, hb2, hb0]
    by_cases hi : i = bitNum
    · simp [hi]
    · simp [hi]

theorem assignOneBit_later_wins_witness :
    (5 ≤ 63 ∧ (0xff : Nat) < 2 ^ 64) ∧
      ∃ r0 r1, assignOneBit wrapCount 5 0 0xff = some r0 ∧
        assignOneBit wrapCount 5 1 r0 = some r1 ∧
        r1.testBit 5 = true ∧
        (∀ i, i ≠ 5 → r1.testBit i = Nat.testBit 0xff i) ∧
        assignOneBit wrapCount 5 1 0xff = some r1 :=
  ⟨by decide, assignOneBit_later_wins wrapCount 5 0xff (by decide) (by decide)⟩

/-- C17. For a 64-bit `w`, a byte `v` and `n ≤ 7`, the byte functions agree with the
range functions on the 8-bit range of byte `n`: `getByteNumber(n, w)` is
`getBits(8n, 8n + 7, w)`, a value below 256, and `putByteNumber(n, v, w)` is
`clearBits(8n, 8n + 7, w)` OR `v << 8n`. -/
theorem byte_functions_refine_range_functions (wide : Nat → Nat → Nat) (n v w : Nat)
    (hn : n ≤ 7) (hv : v < 256) (hw : w < 2 ^ 64) :
    getByteNumber wide n w = getByteNumberViaBits wide n w ∧
      (∃ b, getByteNumber wide n w = some b ∧ b < 256) ∧
      putByteNumber wide n v w = putByteNumberViaBits wide n v w := by
  have hnar : 8 * n + 7 - 8 * n + 1 < 64 := by omega
  obtain ⟨b, hb, hbb⟩ := getByteNumber_testBit wide n w hn
  obtain ⟨g, hg, hgb⟩ :=
    getBits_testBit wrapCount wrapCount_allOnes (8 * n) (8 * n + 7) w (by omega) (by omega)
  obtain ⟨c, hc, hcb⟩ :=
    clearBits_testBit wrapCount wrapCount_allOnes (8 * n) (8 * n + 7) w (by omega) (by omega) hw
  obtain ⟨p, hp, hpb⟩ := putByteNumber_testBit wide n v w hn hv hw
  refine ⟨?_, ⟨b, hb, ?_⟩, ?_⟩
  · unfold getByteNumberViaBits
    rw [getBits_narrow wide wrapCount _ _ w hnar, hb, hg]
    congr 1
    apply Nat.eq_of_testBit_eq
    intro i
    rw [hbb, hgb]
    by_cases h : i < 8
    · have h2 : i ≤ 7 := by omega
      simp [h, h2]
    · have h2 : ¬ i ≤ 7 := by omega
      simp [h, h2]
  · have hv := Option.some.inj (hb.symm.trans (getByteNumber_eq_mod wide n w hn))
    rw [hv]
    exact Nat.mod_lt _ (by decide)
  · unfold putByteNumberViaBits
    rw [clearBits_narrow wide wrapCount _ _ w hnar, hc, hp]
    congr 1
    apply Nat.eq_of_testBit_eq
    intro i
    rw [hpb, Nat.testBit_or, hcb, Nat.testBit_shiftLeft]
    by_cases h : 8 * n ≤ i ∧ i < 8 * n + 8
    · have h2 : 8 * n ≤ i ∧ i ≤ 8 * n + 7 := by omega
      have h3 : i ≥ 8 * n := by omega
      simp [h, h2, h3]
    · rw [if_neg h]
      have h2 : ¬ (8 * n ≤ i ∧ i ≤ 8 * n + 7) := by omega
      by_cases h3 : i ≥ 8 * n
      · have h4 : ¬ i - 8 * n < 8 := by omega
        have h5 : 8 * n + 7 < i := by omega
        simp [h3, h5, testBit_byte_high v _ hv h4]
      · simp [h2, h3]

theorem byte_functions_refine_range_functions_witness :
    (3 ≤ 7 ∧ 0xab < 256 ∧ (0x0011223344556677 : Nat) < 2 ^ 64) ∧
      (getByteNumber wrapCount 3 0x0011223344556677
          = getByteNumberViaBits wrapCount 3 0x0011223344556677 ∧
        (∃ b, getByteNumber wrapCount 3 0x0011223344556677 = some b ∧ b < 256) ∧
        putByteNumber wrapCount 3 0xab 0x0011223344556677
          = putByteNumberViaBits wrapCount 3 0xab 0x0011223344556677) :=
  ⟨by decide,
    byte_functions_refine_range_functions wrapCount 3 0xab 0x0011223344556677
      (by decide) (by decide) (by decide)⟩

/-- C20. For a 64-bit `w`, `buildWord` of the eight bytes
`getByteNumber(0, w), ..., getByteNumber(7, w)` is `w`. -/
theorem buildWord_getByteNumber_roundtrip (wide : Nat → Nat → Nat) (w : Nat)
    (hw : w < 2 ^ 64) :
    ∃ b0 b1 b2 b3 b4 b5 b6 b7,
      getByteNumber wide 0 w = some b0 ∧ getByteNumber wide 1 w = some b1 ∧
      getByteNumber wide 2 w = some b2 ∧ getByteNumber wide 3 w = some b3 ∧
      getByteNumber wide 4 w = some b4 ∧ getByteNumber wide 5 w = some b5 ∧
      getByteNumber wide 6 w = some b6 ∧ getByteNumber wide 7 w = some b7 ∧
      buildWord wide b0 b1 b2 b3 b4 b5 b6 b7 = w := by
  refine ⟨_, _, _, _, _, _, _, _,
    getByteNumber_eq_mod wide 0 w (by decide), getByteNumber_eq_mod wide 1 w (by decide),
    getByteNumber_eq_mod wide 2 w (by decide), getByteNumber_eq_mod wide 3 w (by decide),
    getByteNumber_eq_mod wide 4 w (by decide), getByteNumber_eq_mod wide 5 w (by decide),
    getByteNumber_eq_mod wide 6 w (by decide), getByteNumber_eq_mod wide 7 w (by decide), ?_⟩
  have hm : ∀ x : Nat, x % 256 < 256 := fun x => Nat.mod_lt _ (by decide)
  rw [buildWord_eq_sum wide _ _ _ _ _ _ _ _ (hm _) (hm _) (hm _) (hm _) (hm _) (hm _) (hm _)
    (hm _)]
  simp only [Nat.shiftRight_eq_div_pow]
  omega

theorem buildWord_getByteNumber_roundtrip_witness :
    (0x0011223344556677 : Nat) < 2 ^ 64 ∧
      ∃ b0 b1 b2 b3 b4 b5 b6 b7,
        getByteNumber wrapCount 0 0x0011223344556677 = some b0 ∧
        getByteNumber wrapCount 1 0x0011223344556677 = some b1 ∧
        getByteNumber wrapCount 2 0x0011223344556677 = some b2 ∧
        getByteNumber wrapCount 3 0x0011223344556677 = some b3 ∧
        getByteNumber wrapCount 4 0x0011223344556677 = some b4 ∧
        getByteNumber wrapCount 5 0x0011223344556677 = some b5 ∧
        getByteNumber wrapCount 6 0x0011223344556677 = some b6 ∧
        getByteNumber wrapCount 7 0x0011223344556677 = some b7 ∧
        buildWord wrapCount b0 b1 b2 b3 b4 b5 b6 b7 = 0x0011223344556677 :=
  ⟨by decide, buildWord_getByteNumber_roundtrip wrapCount 0x0011223344556677 (by decide)⟩

/-! ## The buffer functions `clearBuffer` and `expandBits` -/

theorem clearLoop_zeroes (N : Nat) : ∀ (fuel i : Nat) (pbuf : List Char),
    i ≤ N → N ≤ pbuf.length → N - i ≤ fuel →
    ∃ r, clearLoop (N : Int) fuel (i : Int) pbuf = some r ∧ r.length = pbuf.length ∧
      ∀ k, r[k]? = if i ≤ k ∧ k < N then some (Char.ofNat 0) else pbuf[k]? := by
  intro fuel
  induction fuel with
  | zero =>
    intro i pbuf hi _ hf
    have h : ¬ ((i : Int) < (N : Int)) := by omega
    refine ⟨pbuf, by unfold clearLoop; rw [if_neg h], rfl, ?_⟩
    intro k
    have h2 : ¬ (i ≤ k ∧ k < N) := by omega
    rw [if_neg h2]
  | succ fuel ih =>
    intro i pbuf hi hlen hf
    by_cases h : (i : Int) < (N : Int)
    · have hiN : i < N := by omega
      have hlen2 : N ≤ (pbuf.set i (Char.ofNat 0)).length := by
        rw [List.length_set]; exact hlen
      obtain ⟨r, hr, hrl, hrb⟩ :=
        ih (i + 1) (pbuf.set i (Char.ofNat 0)) (by omega) hlen2 (by omega)
      refine ⟨r, ?_, ?_, ?_⟩
      · unfold clearLoop
        rw [if_pos h]
        have e : (i : Int).toNat = i := by omega
        rw [e]
        exact hr
      · rw [hrl, List.length_set]
      · intro k
        rw [hrb, List.getElem?_set]
        by_cases hk : i = k
        · subst hk
          have h1 : ¬ (i + 1 ≤ i ∧ i < N) := by omega
          have h2 : i ≤ i ∧ i < N := by omega
          have h3 : i < pbuf.length := by omega
          rw [if_neg h1, if_pos rfl, if_pos h3, if_pos h2]
        · by_cases hk2 : i + 1 ≤ k ∧ k < N
          · have h2 : i ≤ k ∧ k < N := by omega
            rw [if_pos hk2, if_pos h2]
          · have h2 : ¬ (i ≤ k ∧ k < N) := by omega
            rw [if_neg hk2, if_neg hk, if_neg h2]
    · refine ⟨pbuf, by unfold clearLoop; rw [if_neg h], rfl, ?_⟩
      intro k
      have h2 : ¬ (i ≤ k ∧ k < N) := by omega
      rw [if_neg h2]

/-- C18. For a buffer `pbuf` and a size `N` of type `int` with `0 ≤ N ≤` the length of
`pbuf`, `clearBuffer(pbuf, N)` returns (any `fuel ≥ N` passes suffice) with every byte
at an index below `N` equal to 0 and every byte at an index `≥ N` unchanged; for
`N = 0` the buffer is unchanged. -/
theorem clearBuffer_zeroes_prefix (fuel : Nat) (pbuf : List Char) (N : Nat)
    (hN : N ≤ pbuf.length) (hint : N ≤ 2147483647) (hfuel : N ≤ fuel) :
    ∃ r, clearBuffer fuel pbuf (N : Int) = some r ∧ r.length = pbuf.length ∧
      (∀ k, k < N → r[k]? = some (Char.ofNat 0)) ∧
      (∀ k, N ≤ k → r[k]? = pbuf[k]?) ∧
      (N = 0 → r = pbuf) := by
  obtain ⟨r, hr, hrl, hrb⟩ := clearLoop_zeroes N fuel 0 pbuf (by omega) hN (by omega)
  have hg : (0 : Int) ≤ (N : Int) ∧ (N : Int) ≤ 2147483647 := by omega
  refine ⟨r, ?_, hrl, ?_, ?_, ?_⟩
  · unfold clearBuffer
    rw [if_pos hg]
    exact hr
  · intro k hk
    rw [hrb, if_pos ⟨by omega, hk⟩]
  · intro k hk
    have h : ¬ (0 ≤ k ∧ k < N) := by omega
    rw [hrb, if_neg h]
  · intro h0
    apply List.ext_getElem?
    intro k
    have h : ¬ (0 ≤ k ∧ k < N) := by omega
    rw [hrb, if_neg h]

theorem clearBuffer_zeroes_prefix_witness :
    (3 ≤ ['a', 'b', 'c', 'd'].length ∧ 3 ≤ 2147483647 ∧ 3 ≤ 3) ∧
      ∃ r, clearBuffer 3 ['a', 'b', 'c', 'd'] ((3 : Nat) : Int) = some r ∧
        r.length = ['a', 'b', 'c', 'd'].length ∧
        (∀ k, k < 3 → r[k]? = some (Char.ofNat 0)) ∧
        (∀ k, 3 ≤ k → r[k]? = ['a', 'b', 'c', 'd'][k]?) ∧
        (3 = 0 → r = ['a', 'b', 'c', 'd']) :=
  ⟨by decide,
    clearBuffer_zeroes_prefix 3 ['a', 'b', 'c', 'd'] 3 (by decide) (by decide) (by decide)⟩

theorem expandBody_space (source : Nat) (s : ExpandState) (h : s.i = s.j) :
    expandBody source s =
      { x := s.x, temp := s.temp, j := s.j + 8, location := s.location + 1,
        i := s.i - 1 + 1, bits := s.bits.set s.location.toNat ' ',
        stores := s.stores ++ [s.location] } := by
  unfold expandBody
  rw [if_pos h]
  rfl

theorem expandBody_digit (source : Nat) (s : ExpandState) (h : ¬ s.i = s.j) :
    expandBody source s =
      { x := s.x >>> 1, temp := source, j := s.j, location := s.location + 1,
        i := s.i + 1,
        bits := s.bits.set s.location.toNat
          (if (s.temp &&& s.x) >>> (63 - s.i).toNat = 0 then '0' else '1'),
        stores := s.stores ++ [s.location] } := by
  unfold expandBody
  rw [if_neg h]
  by_cases h0 : (s.temp &&& s.x) >>> (63 - s.i).toNat = 0
  · simp only [h0, if_true, ExpandState.store]
  · simp only [h0, if_false, ExpandState.store]

/-- The test `temp == 0` of `expandBits` after masking with the single bit `e` and
shifting it down reads bit `e` of the word. -/
theorem masked_bit_eq_zero (w e : Nat) :
    (w &&& 2 ^ e) >>> e = 0 ↔ w.testBit e = false := by
  have hb : (w &&& 2 ^ e) >>> e = (w.testBit e).toNat := by
    apply Nat.eq_of_testBit_eq
    intro i
    rw [Nat.testBit_shiftRight, Nat.testBit_and, Nat.testBit_two_pow]
    by_cases hi : i = 0
    · subst hi
      cases hw : w.testBit e <;> simp [hw]
    · have h1 : ¬ e = e + i := by omega
      cases hw : w.testBit e
      · simp [h1]
      · simp [h1, one_testBit, hi]
  rw [hb]
  cases w.testBit e <;> simp

theorem set_layout (source : Nat) (buf bits : List Char) (n : Nat) (c : Char)
    (hc : c = layoutChar source n) (hn : n < buf.length) (hlen : bits.length = buf.length)
    (hlo : ∀ k, k < n → bits[k]? = some (layoutChar source k))
    (hhi : ∀ k, n ≤ k → bits[k]? = buf[k]?) :
    (bits.set n c).length = buf.length ∧
      (∀ k, k < n + 1 → (bits.set n c)[k]? = some (layoutChar source k)) ∧
      (∀ k, n + 1 ≤ k → (bits.set n c)[k]? = buf[k]?) := by
  refine ⟨by rw [List.length_set, hlen], ?_, ?_⟩
  · intro k hk
    rw [List.getElem?_set]
    by_cases h : n = k
    · subst h
      rw [if_pos rfl, if_pos (by omega), hc]
    · rw [if_neg h]
      exact hlo k (by omega)
  · intro k hk
    rw [List.getElem?_set, if_neg (by omega)]
    exact hhi k (by omega)

theorem range_stores (n : Nat) :
    (List.range n).map Int.ofNat ++ [(n : Int)] = (List.range (n + 1)).map Int.ofNat := by
  rw [List.range_succ, List.map_append]
  rfl

/-- One pass of the loop takes the invariant from `n` to `n + 1` passes. -/
theorem expandBody_inv (source : Nat) (buf : List Char) (n : Nat) (s : ExpandState)
    (hn : n < 70) (hbuf : 72 ≤ buf.length) (h : ExpandInv source buf n s) :
    ExpandInv source buf (n + 1) (expandBody source s) := by
  obtain ⟨hx, ht, hj, hloc, hi, hlen, hlo, hhi, hst⟩ := h
  have hlt : (s.location).toNat = n := by omega
  by_cases hr : n % 9 = 8
  · have hij : s.i = s.j := by omega
    have hc : ' ' = layoutChar source n := by
      unfold layoutChar; rw [if_pos hr]
    obtain ⟨b1, b2, b3⟩ := set_layout source buf s.bits n ' ' hc (by omega) hlen hlo hhi
    rw [expandBody_space source s hij]
    refine ⟨?_, ht, ?_, ?_, ?_, ?_, ?_, ?_, ?_⟩
    · show s.x = _
      rw [hx]
      congr 1
      omega
    · show s.j + 8 = _
      omega
    · show s.location + 1 = _
      omega
    · show s.i - 1 + 1 = _
      omega
    · show (s.bits.set s.location.toNat ' ').length = _
      rw [hlt]; exact b1
    · show ∀ k, k < n + 1 → (s.bits.set s.location.toNat ' ')[k]? = _
      rw [hlt]; exact b2
    · show ∀ k, n + 1 ≤ k → (s.bits.set s.location.toNat ' ')[k]? = _
      rw [hlt]; exact b3
    · show s.stores ++ [s.location] = _
      rw [hst, hloc]
      exact range_stores n
  · have hij : ¬ s.i = s.j := by omega
    have he : (63 - s.i).toNat = 63 - (n - n / 9) := by omega
    have hc : (if (s.temp &&& s.x) >>> (63 - s.i).toNat = 0 then '0' else '1')
        = layoutChar source n := by
      unfold layoutChar
      rw [if_neg hr, ht, hx, he]
      have hidx : 63 - (8 * (n / 9) + n % 9) = 63 - (n - n / 9) := by omega
      rw [hidx]
      cases hb : source.testBit (63 - (n - n / 9))
      · rw [if_pos ((masked_bit_eq_zero source _).mpr hb)]
        simp
      · have hne : ¬ (source &&& 2 ^ (63 - (n - n / 9))) >>> (63 - (n - n / 9)) = 0 := by
          rw [masked_bit_eq_zero, hb]
          simp
        rw [if_neg hne]
        simp
    obtain ⟨b1, b2, b3⟩ := set_layout source buf s.bits n _ hc (by omega) hlen hlo hhi
    rw [expandBody_digit source s hij]
    refine ⟨?_, rfl, ?_, ?_, ?_, ?_, ?_, ?_, ?_⟩
    · show s.x >>> 1 = _
      rw [hx, Nat.shiftRight_eq_div_pow, Nat.pow_one]
      have hsplit : 63 - (n - n / 9) = (63 - (n + 1 - (n + 1) / 9)) + 1 := by omega
      rw [hsplit, Nat.pow_succ, Nat.mul_div_cancel _ (by decide : 0 < 2)]
    · show s.j = _
      omega
    · show s.location + 1 = _
      omega
    · show s.i + 1 = _
      omega
    · rw [hlt]; exact b1
    · rw [hlt]; exact b2
    · rw [hlt]; exact b3
    · show s.stores ++ [s.location] = _
      rw [hst, hloc]
      exact range_stores n

/-- The loop of `expandBits` ends: from the invariant at `n` passes, `70 - n` more
passes of fuel reach the exit test with the invariant at 70. -/
theorem expandLoop_runs (source : Nat) (buf : List Char) (hbuf : 72 ≤ buf.length) :
    ∀ (m n : Nat) (s : ExpandState), n + m = 70 → ExpandInv source buf n s →
      ∀ fuel, m ≤ fuel →
        ∃ t, expandLoop source fuel s = some t ∧ ExpandInv source buf 70 t := by
  intro m
  induction m with
  | zero =>
    intro n s hn hinv fuel _
    have h70 : n = 70 := by omega
    subst h70
    have hi : ¬ s.i < 63 := by
      have := hinv.2.2.2.2.1
      omega
    refine ⟨s, ?_, hinv⟩
    cases fuel with
    | zero => unfold expandLoop; rw [if_neg hi]
    | succ f => unfold expandLoop; rw [if_neg hi]
  | succ m ih =>
    intro n s hn hinv fuel hfuel
    have hlt : n < 70 := by omega
    have hi : s.i < 63 := by
      have := hinv.2.2.2.2.1
      omega
    cases fuel with
    | zero => omega
    | succ f =>
      obtain ⟨t, ht, htinv⟩ :=
        ih (n + 1) (expandBody source s) (by omega)
          (expandBody_inv source buf n s hlt hbuf hinv) f (by omega)
      refine ⟨t, ?_, htinv⟩
      unfold expandLoop
      rw [if_pos hi]
      exact ht

theorem expand_mask_init (wide : Nat → Nat → Nat) :
    shl64 wide (not64 (shl64 wide allOnes 1)) 63 = 2 ^ 63 := by
  unfold shl64
  rw [if_pos (by decide), if_pos (by decide)]
  decide

theorem last_digit (source : Nat) :
    (if source &&& 1 = 0 then '0' else '1') = layoutChar source 70 := by
  have h70 : layoutChar source 70 = if source.testBit 0 then '1' else '0' := rfl
  rw [h70, Nat.testBit_zero, Nat.and_one_is_mod]
  by_cases h : source % 2 = 0
  · have h1 : ¬ source % 2 = 1 := by omega
    simp [h, h1]
  · have h1 : source % 2 = 1 := by omega
    simp [h1]

/-- The state in which `expandBits` returns: with fuel for the 70 passes of the loop
and a buffer of at least 72 characters it returns, the 71 visible characters are laid
out, index 71 holds the terminator, the rest of the buffer is untouched, and the
stores went to the indices `0 .. 71` in this order. -/
theorem expandBits_result (wide : Nat → Nat → Nat) (fuel source : Nat) (buf : List Char)
    (hfuel : 70 ≤ fuel) (hbuf : 72 ≤ buf.length) :
    ∃ t, expandBits wide fuel source buf = some t ∧ t.bits.length = buf.length ∧
      (∀ k, k < 71 → t.bits[k]? = some (layoutChar source k)) ∧
      t.bits[71]? = some (Char.ofNat 0) ∧
      (∀ k, 72 ≤ k → t.bits[k]? = buf[k]?) ∧
      t.stores = (List.range 72).map Int.ofNat := by
  have hinit : ExpandInv source buf 0
      ⟨shl64 wide (not64 (shl64 wide allOnes 1)) 63, source, 8, 0, 0, buf, []⟩ := by
    refine ⟨expand_mask_init wide, rfl, rfl, rfl, rfl, rfl, ?_, ?_, rfl⟩
    · intro k hk; omega
    · intro k _; rfl
  obtain ⟨t, ht, hx, htemp, hj, hloc, hi, hlen, hlo, hhi, hst⟩ :=
    expandLoop_runs source buf hbuf 70 0 _ (by omega) hinit fuel hfuel
  obtain ⟨b1, b2, b3⟩ :=
    set_layout source buf t.bits 70 _ (last_digit source) (by omega) hlen hlo hhi
  have hrun : expandBits wide fuel source buf
      = some ((t.store 70 (if source &&& 1 = 0 then '0' else '1')).store 71 (Char.ofNat 0)) := by
    unfold expandBits
    simp only [ht]
    by_cases h0 : source &&& 1 = 0
    · simp only [h0, if_true]
    · simp only [h0, if_false]
  refine ⟨_, hrun, ?_, ?_, ?_, ?_, ?_⟩
  · show ((t.bits.set 70 _).set 71 _).length = _
    rw [List.length_set]; exact b1
  · intro k hk
    show ((t.bits.set 70 _).set 71 _)[k]? = _
    rw [List.getElem?_set, if_neg (by omega)]
    exact b2 k (by omega)
  · show ((t.bits.set 70 _).set 71 _)[71]? = _
    rw [List.getElem?_set, if_pos rfl, if_pos (by rw [b1]; omega)]
  · intro k hk
    show ((t.bits.set 70 _).set 71 _)[k]? = _
    rw [List.getElem?_set, if_neg (by omega)]
    exact b3 k (by omega)
  · show t.stores ++ [70] ++ [71] = _
    rw [hst]
    decide

/-- C11. For every `source`, `expandBits(source, buf)` on a buffer of at least 72
characters returns with this layout: for group `g` and position `p` in `0 .. 7`,
`buf[9g + p]` is the digit of bit `63 - (8g + p)` of `source`; `buf[9g + 8]` is a space
for `g` in `0 .. 6`; `buf[71]` is the terminator. -/
theorem expandBits_layout (wide : Nat → Nat → Nat) (fuel source : Nat) (buf : List Char)
    (hfuel : 70 ≤ fuel) (hbuf : 72 ≤ buf.length) :
    ∃ t, expandBits wide fuel source buf = some t ∧
      (∀ g p, g ≤ 7 → p ≤ 7 →
        t.bits[9 * g + p]? = some (if source.testBit (63 - (8 * g + p)) then '1' else '0')) ∧
      (∀ g, g ≤ 6 → t.bits[9 * g + 8]? = some ' ') ∧
      t.bits[71]? = some (Char.ofNat 0) := by
  obtain ⟨t, ht, _, hlo, h71, _, _⟩ := expandBits_result wide fuel source buf hfuel hbuf
  refine ⟨t, ht, ?_, ?_, h71⟩
  · intro g p hg hp
    rw [hlo (9 * g + p) (by omega)]
    unfold layoutChar
    have h1 : (9 * g + p) % 9 = p := by omega
    have h2 : (9 * g + p) / 9 = g := by omega
    rw [h1, h2, if_neg (by omega)]
  · intro g hg
    rw [hlo (9 * g + 8) (by omega)]
    unfold layoutChar
    rw [if_pos (by omega)]

set_option maxRecDepth 100000 in
/-- Witness of C11 at the example of the source's comment. -/
theorem expandBits_layout_witness :
    (70 ≤ 70 ∧ 72 ≤ (List.replicate 72 'x').length) ∧
      ∃ t, expandBits wrapCount 70 0xAABBCCDDEE001122 (List.replicate 72 'x') = some t ∧
        String.mk (t.bits.take 71)
          = "10101010 10111011 11001100 11011101 11101110 00000000 00010001 00100010" ∧
        t.bits[71]? = some (Char.ofNat 0) := by
  refine ⟨by decide, ?_⟩
  obtain ⟨t, ht, _, _, h71⟩ :=
    expandBits_layout wrapCount 70 0xAABBCCDDEE001122 (List.replicate 72 'x')
      (by decide) (by decide)
  have hd : (expandBits wrapCount 70 0xAABBCCDDEE001122 (List.replicate 72 'x')).map
      (fun s => String.mk (s.bits.take 71))
      = some "10101010 10111011 11001100 11011101 11101110 00000000 00010001 00100010" := by
    decide
  rw [ht] at hd
  exact ⟨t, ht, Option.some.inj hd, h71⟩

/-- C19. For every `source` the loop of `expandBits` ends (70 passes of fuel suffice)
and the function stores to the buffer indices `0, 1, ..., 71` in this order, each
exactly once and none at an index `≥ 72`: a buffer of 72 characters suffices and
everything beyond index 71 is left unchanged. -/
theorem expandBits_stores (wide : Nat → Nat → Nat) (fuel source : Nat) (buf : List Char)
    (hfuel : 70 ≤ fuel) (hbuf : 72 ≤ buf.length) :
    ∃ t, expandBits wide fuel source buf = some t ∧
      t.stores = (List.range 72).map Int.ofNat ∧
      t.stores.Nodup ∧
      (∀ idx : Int, idx ∈ t.stores ↔ (0 ≤ idx ∧ idx < 72)) ∧
      t.bits.length = buf.length ∧
      (∀ k, 72 ≤ k → t.bits[k]? = buf[k]?) := by
  obtain ⟨t, ht, hlen, _, _, hhi, hst⟩ := expandBits_result wide fuel source buf hfuel hbuf
  refine ⟨t, ht, hst, ?_, ?_, hlen, hhi⟩
  · rw [hst]
    decide
  · intro idx
    rw [hst, List.mem_map]
    constructor
    · rintro ⟨a, ha, rfl⟩
      have h := List.mem_range.mp ha
      show (0 : Int) ≤ (a : Int) ∧ (a : Int) < 72
      omega
    · rintro ⟨h0, h1⟩
      refine ⟨idx.toNat, List.mem_range.mpr (by omega), ?_⟩
      show ((idx.toNat : Nat) : Int) = idx
      omega

theorem expandBits_stores_witness :
    (70 ≤ 70 ∧ 72 ≤ (List.replicate 72 'x').length) ∧
      ∃ t, expandBits wrapCount 70 0xAABBCCDDEE001122 (List.replicate 72 'x') = some t ∧
        t.stores = (List.range 72).map Int.ofNat ∧
        t.stores.Nodup ∧
        (∀ idx : Int, idx ∈ t.stores ↔ (0 ≤ idx ∧ idx < 72)) ∧
        t.bits.length = (List.replicate 72 'x').length ∧
        (∀ k, 72 ≤ k → t.bits[k]? = (List.replicate 72 'x')[k]?) :=
  ⟨by decide,
    expandBits_stores wrapCount 70 0xAABBCCDDEE001122 (List.replicate 72 'x')
      (by decide) (by decide)⟩

end Tools
